import Mathlib

/-!
Verification of the AutoList batch-command scheduler (`src/html/autolist.js`).

The development shallowly embeds the scheduler-relevant parts of
`autolist.js`: the command-descriptor data model, the row parser of
`setupCommands`, the dispatch loop `runNextCommand`, the completion
handling of `runCommand`/`finishCommand` (including the identifier
rewrite that a successful `create` performs), the cooperative stop flag,
and the concurrency configuration (`max_concurrent`, `concurrent`,
`delay`, `updateConcurrency`).

JavaScript strings are embedded as `String` or `List Char`; the
asynchronous event interleaving is embedded as a small-step relation in
which the environment chooses which pending dispatch invocation or which
in-flight remote completion fires next.  A `pending` counter tracks how
many `runNextCommand` invocations have been scheduled (the initial
`for`-loop kick schedules `concurrent` of them; every `finishCommand`
schedules one more via `setTimeout`).
-/

/-- Descriptor status, `cmd.status` in the source: `'waiting'`,
`'running'`, `'done'`. -/
inductive Status where
  | waiting
  | running
  | done
deriving DecidableEq, Inhabited, Repr

/-- Descriptor mode, `cmd.mode` in the source: `'create'`, `'add'`,
`'delete'`. -/
inductive Mode where
  | create
  | add
  | delete
deriving DecidableEq, Inhabited, Repr

/-- One command descriptor, the object literals pushed onto
`commands_todo` by `setupCommands`.  `q` is the entity reference
(`cmd.q`), `prop`/`value` the statement property and optional value. -/
structure Cmd where
  q : String
  mode : Mode
  prop : List Char := []
  value : Option (List Char) := none
  status : Status
deriving DecidableEq, Repr

instance : Inhabited Cmd := ⟨{ q := "", mode := Mode.add, status := Status.waiting }⟩

/-! ## Row parser (`setupCommands`, lines 140-158)

The source matches each row of the command textarea against three
regular expressions, case-insensitively:
  * `/^\s*-(P\d+)/i`            -> delete, property = capture 1
  * `/^\s*-(P\d+)\s*:\s*(Q\d+)/i` -> adds a value filter to the delete
  * `/^\s*(P\d+)\s*:\s*(Q\d+)\s*$/i` -> add
Rows matching none of them are skipped.  The regexes are embedded as
explicit scanners over `List Char`; greedy `\d+` followed by `\s*:` has
no backtracking ambiguity, so maximal munch is faithful. -/

/-- `\d` of the regexes. -/
def isDigitCh (c : Char) : Bool := c.isDigit

/-- `[Pp]`, the case-insensitive `P` of the regexes. -/
def isPCh (c : Char) : Bool := c = 'P' || c = 'p'

/-- `[Qq]`, the case-insensitive `Q` of the regexes. -/
def isQCh (c : Char) : Bool := c = 'Q' || c = 'q'

/-- `\s*`: drop leading whitespace. -/
def skipWs : List Char → List Char
  | [] => []
  | c :: cs => if c.isWhitespace then skipWs cs else c :: cs

/-- `\s*:\s*(Q\d+)` — the tail common to the second and third regex,
applied after the property's digits: optional whitespace, a colon,
optional whitespace, then the value capture group. -/
def matchColonValue (afterDigits : List Char) : Option (List Char × List Char) :=
  match skipWs afterDigits with
  | b :: rest3 =>
    if b = ':' then
      match skipWs rest3 with
      | q :: rest4 =>
        if isQCh q then
          let vs := rest4.takeWhile isDigitCh
          if vs.isEmpty then none else some (q :: vs, rest4.dropWhile isDigitCh)
        else none
      | [] => none
    else none
  | [] => none

/-- `/^\s*-(P\d+)/i`: on success, the first capture group (the property,
in original case). -/
def matchDeleteProp (row : List Char) : Option (List Char) :=
  match skipWs row with
  | a :: c :: rest =>
    if a = '-' ∧ isPCh c then
      let ds := rest.takeWhile isDigitCh
      if ds.isEmpty then none else some (c :: ds)
    else none
  | _ => none

/-- `/^\s*-(P\d+)\s*:\s*(Q\d+)/i`: on success, the second capture group
(the value filter); the regex is not anchored at the end of the line. -/
def matchDeleteValue (row : List Char) : Option (List Char) :=
  match skipWs row with
  | a :: c :: rest =>
    if a = '-' ∧ isPCh c then
      let ds := rest.takeWhile isDigitCh
      if ds.isEmpty then none
      else
        match matchColonValue (rest.dropWhile isDigitCh) with
        | some (v, _) => some v
        | none => none
    else none
  | _ => none

/-- `/^\s*(P\d+)\s*:\s*(Q\d+)\s*$/i`: on success, both capture groups;
`\s*$` demands that nothing but whitespace follow the value. -/
def matchAddRow (row : List Char) : Option (List Char × List Char) :=
  match skipWs row with
  | c :: rest =>
    if isPCh c then
      let ds := rest.takeWhile isDigitCh
      if ds.isEmpty then none
      else
        match matchColonValue (rest.dropWhile isDigitCh) with
        | some (v, afterV) =>
          if (skipWs afterV).isEmpty then some (c :: ds, v) else none
        | none => none
    else none
  | [] => none

/-- The mode/prop/value part of a parsed row. -/
structure RowCmd where
  mode : Mode
  prop : List Char
  value : Option (List Char)
deriving DecidableEq, Repr

/-- One iteration of the `$.each(rows, ...)` body of `setupCommands`:
first try the delete pattern (value filter added by the second regex),
otherwise the add pattern, otherwise skip the row (`return`). -/
def parseRow (row : List Char) : Option RowCmd :=
  match matchDeleteProp row with
  | none =>
    match matchAddRow row with
    | some (p, v) => some ⟨Mode.add, p, some v⟩
    | none => none
  | some p => some ⟨Mode.delete, p, matchDeleteValue row⟩

/-- Build the descriptor pushed onto `commands_todo` for a parsed row of
the entity with reference `q` (`{ q:q , status:'waiting' , ... }`). -/
def mkRowCmd (q : String) (rc : RowCmd) : Cmd :=
  { q := q, mode := rc.mode, prop := rc.prop, value := rc.value, status := Status.waiting }

/-- The descriptors that `setupCommands` emits for one selected entity
from the textarea rows, in row order (rows that parse to `none` are
skipped without emitting anything). -/
def commandsForRows (q : String) : List (List Char) → List Cmd
  | [] => []
  | r :: rs =>
    match parseRow r with
    | none => commandsForRows q rs
    | some rc => mkRowCmd q rc :: commandsForRows q rs

/-! ## Concurrency configuration (lines 114-117, 332-336, 357-361) -/

/-- The three configuration fields of the `AutoList` object. -/
structure ALConfig where
  max_concurrent : Nat
  concurrent : Nat
  delay : Nat
deriving DecidableEq, Repr

/-- Constructor defaults (lines 114-117): one thread and a 2000 ms delay
for a non-bot user. -/
def alConfigDefault : ALConfig := { max_concurrent := 1, concurrent := 1, delay := 2000 }

/-- The configuration in effect after `initializeAutoListBox` ran for a
logged-in user: a bot user gets `max_concurrent = 5`, `concurrent = 5`,
`delay = 1` (lines 332-336); anyone else keeps the defaults. -/
def alConfigForUser (isBot : Bool) : ALConfig :=
  if isBot then { max_concurrent := 5, concurrent := 5, delay := 1 } else alConfigDefault

/-- `updateConcurrency` (lines 357-361): `v = Math.floor(input * 1)`;
if `v < 1 || v > max_concurrent` the entry is ignored, otherwise
`concurrent = v`.  The numeric text field value is embedded as a
rational; `Math.floor` on it is exact rational floor. -/
def updateConcurrency (input : ℚ) (cfg : ALConfig) : ALConfig :=
  let v : Int := ⌊input⌋
  if v < 1 ∨ v > (cfg.max_concurrent : Int) then cfg
  else { cfg with concurrent := v.toNat }

/-! ## The `create` completion callback (`runCommand`, lines 201-227)

The callback receives the WiDaR response `d`; on a jQuery `.fail` it is
invoked with no argument (`d` undefined).  `d.error` may be the string
`"OK"`, another string, an object carrying a `code`, or absent.  The
callback body is embedded as a fallible function: a JavaScript
`TypeError` (property access on `undefined`) is `Except.error`. -/

/-- The value of `d.error` in the create-completion callback. -/
inductive JsErrorVal where
  | undef
  | str (s : String)
  | obj (code : String)
deriving DecidableEq, Repr

/-- The WiDaR create response object `d` (when defined): its `error`
field and its optional `q` field. -/
structure CreateResp where
  error : JsErrorVal
  q : Option String
deriving DecidableEq, Repr

/-- What the create-completion callback did to scheduler state. -/
inductive CreateOutcome where
  | finished
  | rewriteAndFinish (newQ : String)
deriving DecidableEq, Repr

/-- A thrown JavaScript exception. -/
inductive JsException where
  | typeError
deriving DecidableEq, Repr

/-- `typeof x == 'object'` and `x.code == 'no-external-page'` for the
embedded `d.error`. -/
def isNoExternalPage : JsErrorVal → Bool
  | JsErrorVal.obj code => code = "no-external-page"
  | _ => false

/-- `d.q.replace(/\D/,'')` (line 217): the regex has no `g` flag, so
only the FIRST non-digit character is removed. -/
def stripFirstNonDigit : List Char → List Char
  | [] => []
  | c :: cs => if c.isDigit then c :: stripFirstNonDigit cs else cs

/-- The create-completion callback (lines 204-226).  `d = none` models
the `.fail` invocation with no argument.  Control flow of the source:
the guard `typeof d == 'undefined' || d.error != 'OK'` enters an error
block whose first statement reads `d.error` (a TypeError when `d` is
undefined); only the `no-external-page` object code returns early via
`finishCommand`; every other path falls through to
`var new_q = d.q.replace(/\D/,'')` (a TypeError when `d.q` is absent)
followed by the identifier rewrite and `finishCommand`. -/
def createCallback (d : Option CreateResp) : Except JsException CreateOutcome :=
  match d with
  | none => Except.error JsException.typeError
  | some r =>
    if r.error ≠ JsErrorVal.str "OK" ∧ isNoExternalPage r.error then
      Except.ok CreateOutcome.finished
    else
      match r.q with
      | none => Except.error JsException.typeError
      | some qs => Except.ok (CreateOutcome.rewriteAndFinish (String.mk (stripFirstNonDigit qs.data)))

/-! ## The `delete` completion logic (`runCommand`, lines 233-255)

The `wbgetentities` callback iterates the claims of the property
(`cmd.prop.toUpperCase()`).  With a value filter it skips every claim
whose `mainsnak.datavalue.value['numeric-id']` (a JSON number, or `''`
when absent, via `|| ''`) compares loosely unequal (`!=`) to the string
`cmd.value`; the first non-skipped claim is removed (`return false`
breaks the loop).  If no claim was selected the descriptor is finished
without any `removeClaim` call. -/

/-- One claim of the entity for the requested property: its statement id
and its `mainsnak.datavalue.value['numeric-id']` (absent when the snak
has no numeric id). -/
structure WbClaim where
  id : String
  numericId : Option Nat
deriving DecidableEq, Repr

/-- JavaScript `ToNumber` restricted to the strings that occur as
`cmd.value` here (`Q\d+` / digit strings): a string of digits denotes
its decimal value (the empty string denotes 0), any string containing a
non-digit is NaN (`none`). -/
def jsToNumber? (s : List Char) : Option Nat :=
  if s.all isDigitCh then some (s.foldl (fun n c => n * 10 + (c.toNat - '0'.toNat)) 0) else none

/-- The skip test `(numericId || '') != cmd.value` with JavaScript loose
inequality: number vs string coerces the string with `ToNumber` (NaN
compares unequal to everything); a missing numeric id yields `''`,
compared to `cmd.value` as strings.  Returns `true` when the claim is
SKIPPED. -/
def snakNeqValue (nid : Option Nat) (v : List Char) : Bool :=
  match nid with
  | some n =>
    match jsToNumber? v with
    | some m => !(n == m)
    | none => true
  | none => !(([] : List Char) == v)

/-- The claim (statement) id that the delete handler removes, if any:
the first claim that the value filter does not skip; with no value
filter, the first claim outright.  `none` means the descriptor is
finished with no `removeClaim` call (the `if (!done)` branch). -/
def selectClaimToRemove : List WbClaim → Option (List Char) → Option String
  | [], _ => none
  | c :: rest, val =>
    match val with
    | some v => if snakNeqValue c.numericId v then selectClaimToRemove rest (some v) else some c.id
    | none => some c.id

/-! ## Scheduler state machine

`AutoList` state visible to the scheduler: the descriptor list
`commands_todo`, the in-flight index list `running`, the cap
`concurrent`, the stop flag `emergency_stop`, plus a `pending` counter
of scheduled-but-not-yet-run `runNextCommand` invocations (the initial
kick schedules `concurrent` of them, every `finishCommand` one more). -/

/-- Scheduler-visible state of one `AutoList` run. -/
structure State where
  commands : List Cmd
  running : List Nat
  concurrent : Nat
  stop : Bool
  pending : Nat
deriving DecidableEq, Repr

/-- Entity references of the in-flight descriptors: the keys of the
`q_running` object built at lines 280-283. -/
def qRunning (s : State) : List String :=
  s.running.map (fun i => ((s.commands[i]?).getD default).q)

/-- `commands_todo[k].status = st` for one index, leaving every other
descriptor untouched. -/
def setStatus : List Cmd → Nat → Status → List Cmd
  | [], _, _ => []
  | c :: cs, 0, st => { c with status := st } :: cs
  | c :: cs, k + 1, st => c :: setStatus cs k st

/-- The identifier rewrite at lines 220-222: every descriptor whose `q`
equals `old_q` gets `q = new_q` (status is irrelevant to the loop). -/
def rewriteQ (cs : List Cmd) (oldQ newQ : String) : List Cmd :=
  cs.map (fun c => if c.q = oldQ then { c with q := newQ } else c)

/-- The `$.each(commands_todo, ...)` scan of `runNextCommand`
(lines 285-293), carried out from index `k`: accumulates
`has_commands_left` (some scanned descriptor has status other than
`done`) and breaks with `run_next = k` at the first descriptor that is
`waiting` and whose `q` is not in `q_running`. -/
def scanLoop (qr : List String) : List Cmd → Nat → Bool × Option Nat
  | [], _ => (false, none)
  | c :: cs, k =>
    let hl : Bool := c.status != Status.done
    if c.status != Status.waiting then
      let r := scanLoop qr cs (k + 1)
      (hl || r.1, r.2)
    else if qr.contains c.q then
      let r := scanLoop qr cs (k + 1)
      (hl || r.1, r.2)
    else
      (hl, some k)

/-- The scan started at index 0, selection component. -/
def scanSel (qr : List String) (cs : List Cmd) : Option Nat :=
  (scanLoop qr cs 0).2

/-- The scheduler-visible effect of `runCommand(id)` (lines 195-198)
before the remote call is issued: push onto `running`, set status
`'running'`. -/
def runCommandStep (s : State) (k : Nat) : State :=
  { s with running := s.running ++ [k], commands := setStatus s.commands k Status.running }

/-- `runNextCommand` (lines 268-307) as a state transformer; the `Bool`
is whether this invocation called `allDone()`.  In source order: return
if `emergency_stop`; return if `running.length >= concurrent` (the
rescheduling `setTimeout` callback at line 276 never invokes
`runNextCommand`, it only names it, so nothing is scheduled); build
`q_running`; scan; `allDone()` when nothing undone is left; return when
nothing is eligible (line 301, same inert `setTimeout`); otherwise
dispatch the selected descriptor. -/
def runNextCommand (s : State) : State × Bool :=
  if s.stop then (s, false)
  else if s.concurrent ≤ s.running.length then (s, false)
  else
    let qr := qRunning s
    let res := scanLoop qr s.commands 0
    if res.1 = false then (s, true)
    else
      match res.2 with
      | none => (s, false)
      | some k => (runCommandStep s k, false)

/-- `finishCommand(id)` (lines 166-182) without the UI row removal: set
status `'done'`, filter `id` out of `running`, and schedule one
`runNextCommand` invocation (`setTimeout(..., me.delay)`). -/
def finishCommand (s : State) (id : Nat) : State :=
  { s with
    commands := setStatus s.commands id Status.done,
    running := s.running.filter (fun v => v != id),
    pending := s.pending + 1 }

/-- The events the environment can fire against a run: a scheduled
`runNextCommand` invocation, the completion callback of an in-flight
non-rewriting descriptor (`add`, `delete`, or a `create` that finished
via the `no-external-page` branch), the successful completion of an
in-flight `create` yielding concrete id `newQ`, and a click on the stop
button. -/
inductive Act where
  | rnc
  | completePlain (id : Nat)
  | completeCreate (id : Nat) (newQ : String)
  | stopClick
deriving DecidableEq, Repr

/-- One environment event applied to a state: `none` when the event is
not enabled (no invocation pending, or no such in-flight descriptor).
The `Bool` records whether `allDone()` was called.  A successful create
completion reads `old_q = cmd.q` at completion time, rewrites every
descriptor with that `q` to `newQ` (lines 216-222), then finishes. -/
def stepA (a : Act) (s : State) : Option (State × Bool) :=
  match a with
  | Act.rnc =>
    if s.pending = 0 then none
    else some (runNextCommand { s with pending := s.pending - 1 })
  | Act.completePlain id =>
    if s.running.contains id then some (finishCommand s id, false) else none
  | Act.completeCreate id newQ =>
    if s.running.contains id ∧ ((s.commands[id]?).getD default).mode = Mode.create then
      let oldQ := ((s.commands[id]?).getD default).q
      some (finishCommand { s with commands := rewriteQ s.commands oldQ newQ } id, false)
    else none
  | Act.stopClick => some ({ s with stop := true }, false)

/-- One scheduler step: some enabled event produced the new state. -/
def StepRel (s s' : State) : Prop :=
  ∃ a r, stepA a s = some r ∧ r.1 = s'

/-- A step that is not the successful completion of a `create` (so no
identifier rewrite happens in it). -/
def StepRelNC (s s' : State) : Prop :=
  ∃ a r, (∀ id newQ, a ≠ Act.completeCreate id newQ) ∧ stepA a s = some r ∧ r.1 = s'

/-- Reachability of scheduler states along environment events. -/
def Reachable (s s' : State) : Prop :=
  Relation.ReflTransGen StepRel s s'

/-- Reachability along steps that perform no identifier rewrite. -/
def ReachableNC (s s' : State) : Prop :=
  Relation.ReflTransGen StepRelNC s s'

/-- The state at the start of a run (`al_do_process` click, lines
402-413): `setupCommands` rebuilt the descriptor list with every status
`'waiting'` and `running = []`, `emergency_stop = false`, and the
`for`-loop kick scheduled `concurrent` invocations of
`runNextCommand`. -/
def mkStart (cs : List Cmd) (cap : Nat) : State :=
  { commands := cs.map (fun c => { c with status := Status.waiting }),
    running := [],
    concurrent := cap,
    stop := false,
    pending := cap }

/-- Eligibility of the descriptor at index `k` (the spec's rule): it
exists, is `waiting`, and its `q` is not among `qr`. -/
def eligAt (qr : List String) (cs : List Cmd) (k : Nat) : Bool :=
  match cs[k]? with
  | some c => c.status == Status.waiting && !(qr.contains c.q)
  | none => false

/-- Per-entity mutual exclusion, status form: no two distinct
descriptors with status `'running'` share an entity reference. -/
def MutexProp (s : State) : Prop :=
  ∀ (i j : Nat) (ci cj : Cmd), s.commands[i]? = some ci → s.commands[j]? = some cj →
    ci.status = Status.running → cj.status = Status.running → i ≠ j → ci.q ≠ cj.q

/-- The inductive invariant of a run: `running` holds no duplicates,
every member is a valid index of a descriptor with status `'running'`,
every descriptor with status `'running'` is a member, the entity
references of the members are pairwise distinct, and the member count
never exceeds the cap. -/
def SchedInv (s : State) : Prop :=
  s.running.Nodup ∧
  (∀ i ∈ s.running, ∃ c, s.commands[i]? = some c ∧ c.status = Status.running) ∧
  (∀ k c, s.commands[k]? = some c → c.status = Status.running → k ∈ s.running) ∧
  s.running.Pairwise
    (fun i j => ((s.commands[i]?).getD default).q ≠ ((s.commands[j]?).getD default).q) ∧
  s.running.length ≤ s.concurrent

/-- Execute a list of environment events from a state, counting how many
of them invoked `allDone()`; `none` when some event in the list was not
enabled at its turn. -/
def execTrace : State → List Act → Option (State × Nat)
  | s, [] => some (s, 0)
  | s, a :: rest =>
    match stepA a s with
    | none => none
    | some (s', fired) =>
      match execTrace s' rest with
      | none => none
      | some (t, n) => some (t, n + (if fired then 1 else 0))

/-! # Theorems -/

/-! ## Character and scanner lemmas for the row parser -/

theorem isPCh_cases {c : Char} (h : isPCh c = true) : c = 'P' ∨ c = 'p' := by
  simpa [isPCh] using h

theorem isQCh_cases {c : Char} (h : isQCh c = true) : c = 'Q' ∨ c = 'q' := by
  simpa [isQCh] using h

theorem not_ws_of_isPCh {c : Char} (h : isPCh c = true) : c.isWhitespace = false := by
  rcases isPCh_cases h with rfl | rfl <;> decide

theorem not_ws_of_isQCh {c : Char} (h : isQCh c = true) : c.isWhitespace = false := by
  rcases isQCh_cases h with rfl | rfl <;> decide

theorem ne_dash_of_isPCh {c : Char} (h : isPCh c = true) : ¬(c = '-') := by
  rcases isPCh_cases h with rfl | rfl <;> decide

theorem skipWs_cons_of_not_ws {c : Char} {cs : List Char} (h : c.isWhitespace = false) :
    skipWs (c :: cs) = c :: cs := by
  simp [skipWs, h]

theorem takeWhile_eq_self_of_all {p : Char → Bool} :
    ∀ {l : List Char}, l.all p = true → l.takeWhile p = l := by
  intro l h
  induction l with
  | nil => rfl
  | cons a l ih =>
    simp only [List.all_cons, Bool.and_eq_true] at h
    simp [List.takeWhile_cons, h.1, ih h.2]

theorem dropWhile_eq_nil_of_all {p : Char → Bool} :
    ∀ {l : List Char}, l.all p = true → l.dropWhile p = [] := by
  intro l h
  induction l with
  | nil => rfl
  | cons a l ih =>
    simp only [List.all_cons, Bool.and_eq_true] at h
    simp [List.dropWhile_cons, h.1, ih h.2]

theorem takeWhile_append_cons {p : Char → Bool} {l r : List Char} {x : Char}
    (hl : l.all p = true) (hx : p x = false) :
    (l ++ x :: r).takeWhile p = l := by
  induction l with
  | nil => simp [List.takeWhile_cons, hx]
  | cons a l ih =>
    simp only [List.all_cons, Bool.and_eq_true] at hl
    simp [List.takeWhile_cons, hl.1, ih hl.2]

theorem dropWhile_append_cons {p : Char → Bool} {l r : List Char} {x : Char}
    (hl : l.all p = true) (hx : p x = false) :
    (l ++ x :: r).dropWhile p = x :: r := by
  induction l with
  | nil => simp [List.dropWhile_cons, hx]
  | cons a l ih =>
    simp only [List.all_cons, Bool.and_eq_true] at hl
    simp [List.dropWhile_cons, hl.1, ih hl.2]

theorem matchColonValue_colon {q : Char} {vs : List Char} (hQ : isQCh q = true)
    (hvne : vs ≠ []) (hvall : vs.all isDigitCh = true) :
    matchColonValue (':' :: q :: vs) = some (q :: vs, []) := by
  obtain ⟨v, vs', rfl⟩ := List.exists_cons_of_ne_nil hvne
  have hsk1 : skipWs (':' :: q :: v :: vs') = ':' :: q :: v :: vs' :=
    skipWs_cons_of_not_ws (by decide)
  have hsk2 : skipWs (q :: v :: vs') = q :: v :: vs' :=
    skipWs_cons_of_not_ws (not_ws_of_isQCh hQ)
  simp [matchColonValue, hsk1, hsk2, hQ, takeWhile_eq_self_of_all hvall,
    dropWhile_eq_nil_of_all hvall]

theorem parseRow_delete_line {c : Char} {ds : List Char} (hP : isPCh c = true) (hne : ds ≠ [])
    (hall : ds.all isDigitCh = true) :
    parseRow ('-' :: c :: ds) = some ⟨Mode.delete, c :: ds, none⟩ := by
  obtain ⟨d, ds', rfl⟩ := List.exists_cons_of_ne_nil hne
  have hsk : skipWs ('-' :: c :: d :: ds') = '-' :: c :: d :: ds' :=
    skipWs_cons_of_not_ws (by decide)
  have h1 : matchDeleteProp ('-' :: c :: d :: ds') = some (c :: d :: ds') := by
    simp [matchDeleteProp, hsk, hP, takeWhile_eq_self_of_all hall]
  have h2 : matchDeleteValue ('-' :: c :: d :: ds') = none := by
    simp [matchDeleteValue, hsk, hP, takeWhile_eq_self_of_all hall,
      dropWhile_eq_nil_of_all hall, matchColonValue, skipWs]
  simp [parseRow, h1, h2]

theorem parseRow_delete_value_line {c q : Char} {ds vs : List Char}
    (hP : isPCh c = true) (hne : ds ≠ []) (hall : ds.all isDigitCh = true)
    (hQ : isQCh q = true) (hvne : vs ≠ []) (hvall : vs.all isDigitCh = true) :
    parseRow ('-' :: c :: (ds ++ ':' :: q :: vs)) =
      some ⟨Mode.delete, c :: ds, some (q :: vs)⟩ := by
  obtain ⟨d, ds', rfl⟩ := List.exists_cons_of_ne_nil hne
  have hcolon : isDigitCh ':' = false := by decide
  have htw := takeWhile_append_cons (l := d :: ds') (r := q :: vs) hall hcolon
  have hdw := dropWhile_append_cons (l := d :: ds') (r := q :: vs) hall hcolon
  have hsk : skipWs ('-' :: c :: ((d :: ds') ++ ':' :: q :: vs)) =
      '-' :: c :: ((d :: ds') ++ ':' :: q :: vs) :=
    skipWs_cons_of_not_ws (by decide)
  have hcv := matchColonValue_colon hQ hvne hvall
  have h1 : matchDeleteProp ('-' :: c :: ((d :: ds') ++ ':' :: q :: vs)) =
      some (c :: d :: ds') := by
    simp only [matchDeleteProp, hsk, htw, hP, and_true]
    simp
  have h2 : matchDeleteValue ('-' :: c :: ((d :: ds') ++ ':' :: q :: vs)) = some (q :: vs) := by
    simp only [matchDeleteValue, hsk, htw, hdw, hcv, hP, and_true]
    simp
  simp only [List.cons_append] at h1 h2
  simp [parseRow, h1, h2]

theorem parseRow_add_line {c q : Char} {ds vs : List Char}
    (hP : isPCh c = true) (hne : ds ≠ []) (hall : ds.all isDigitCh = true)
    (hQ : isQCh q = true) (hvne : vs ≠ []) (hvall : vs.all isDigitCh = true) :
    parseRow (c :: (ds ++ ':' :: q :: vs)) = some ⟨Mode.add, c :: ds, some (q :: vs)⟩ := by
  obtain ⟨d, ds', rfl⟩ := List.exists_cons_of_ne_nil hne
  have hcolon : isDigitCh ':' = false := by decide
  have htw := takeWhile_append_cons (l := d :: ds') (r := q :: vs) hall hcolon
  have hdw := dropWhile_append_cons (l := d :: ds') (r := q :: vs) hall hcolon
  have hsk : skipWs (c :: ((d :: ds') ++ ':' :: q :: vs)) =
      c :: ((d :: ds') ++ ':' :: q :: vs) :=
    skipWs_cons_of_not_ws (not_ws_of_isPCh hP)
  have hcv := matchColonValue_colon hQ hvne hvall
  have h1 : matchDeleteProp (c :: ((d :: ds') ++ ':' :: q :: vs)) = none := by
    simp only [matchDeleteProp, hsk]
    simp [ne_dash_of_isPCh hP]
  have h3 : matchAddRow (c :: ((d :: ds') ++ ':' :: q :: vs)) =
      some (c :: d :: ds', q :: vs) := by
    simp only [matchAddRow, hsk, htw, hdw, hcv, hP]
    simp [skipWs]
  simp only [List.cons_append] at h1 h3
  simp [parseRow, h1, h3]

theorem parseRow_no_match {row : List Char} (h1 : matchDeleteProp row = none)
    (h2 : matchAddRow row = none) : parseRow row = none := by
  simp [parseRow, h1, h2]

theorem commandsForRows_eq_filterMap (q : String) (rows : List (List Char)) :
    commandsForRows q rows = (rows.filterMap parseRow).map (mkRowCmd q) := by
  induction rows with
  | nil => rfl
  | cons r rs ih =>
    cases h : parseRow r <;> simp [commandsForRows, h, List.filterMap_cons, ih]

/-- Claim C8: for every input line, the parser produces a `delete`
descriptor with no value for a line of form `-<Prop>`, a `delete`
descriptor with that value filter for a line of form `-<Prop>:<Value>`,
an `add` descriptor with that property and value for a line of form
`<Prop>:<Value>` (case-insensitively), and no descriptor for a line
matching neither pattern; per selected entity the descriptors are
emitted in row order, all sharing that entity's `entity_ref` (and all
created `waiting`). -/
theorem c8_row_grammar :
    (∀ (c : Char) (ds : List Char), isPCh c = true → ds ≠ [] → ds.all isDigitCh = true →
      parseRow ('-' :: c :: ds) = some ⟨Mode.delete, c :: ds, none⟩) ∧
    (∀ (c q : Char) (ds vs : List Char), isPCh c = true → ds ≠ [] → ds.all isDigitCh = true →
      isQCh q = true → vs ≠ [] → vs.all isDigitCh = true →
      parseRow ('-' :: c :: (ds ++ ':' :: q :: vs)) =
        some ⟨Mode.delete, c :: ds, some (q :: vs)⟩) ∧
    (∀ (c q : Char) (ds vs : List Char), isPCh c = true → ds ≠ [] → ds.all isDigitCh = true →
      isQCh q = true → vs ≠ [] → vs.all isDigitCh = true →
      parseRow (c :: (ds ++ ':' :: q :: vs)) = some ⟨Mode.add, c :: ds, some (q :: vs)⟩) ∧
    (∀ row : List Char, matchDeleteProp row = none → matchAddRow row = none →
      parseRow row = none) ∧
    (∀ (q : String) (rows : List (List Char)),
      commandsForRows q rows = (rows.filterMap parseRow).map (mkRowCmd q) ∧
      ∀ cmd ∈ commandsForRows q rows, cmd.q = q ∧ cmd.status = Status.waiting) := by
  refine ⟨fun c ds hP hne hall => parseRow_delete_line hP hne hall,
    fun c q ds vs h1 h2 h3 h4 h5 h6 => parseRow_delete_value_line h1 h2 h3 h4 h5 h6,
    fun c q ds vs h1 h2 h3 h4 h5 h6 => parseRow_add_line h1 h2 h3 h4 h5 h6,
    fun row h1 h2 => parseRow_no_match h1 h2,
    fun q rows => ⟨commandsForRows_eq_filterMap q rows, ?_⟩⟩
  intro cmd hmem
  rw [commandsForRows_eq_filterMap] at hmem
  obtain ⟨rc, _, rfl⟩ := List.mem_map.mp hmem
  exact ⟨rfl, rfl⟩

/-- Concrete instantiation of `c8_row_grammar`: the lines `-P31`,
`-P31:Q5`, `P31:Q5` and `xyz`. -/
theorem c8_row_grammar_witness :
    parseRow ('-' :: 'P' :: ['3', '1']) = some ⟨Mode.delete, ['P', '3', '1'], none⟩ ∧
    parseRow ('-' :: 'P' :: (['3', '1'] ++ ':' :: 'Q' :: ['5'])) =
      some ⟨Mode.delete, ['P', '3', '1'], some ['Q', '5']⟩ ∧
    parseRow ('P' :: (['3', '1'] ++ ':' :: 'Q' :: ['5'])) =
      some ⟨Mode.add, ['P', '3', '1'], some ['Q', '5']⟩ ∧
    parseRow "xyz".data = none :=
  ⟨c8_row_grammar.1 'P' ['3', '1'] (by decide) (by decide) (by decide),
   c8_row_grammar.2.1 'P' 'Q' ['3', '1'] ['5'] (by decide) (by decide) (by decide)
     (by decide) (by decide) (by decide),
   c8_row_grammar.2.2.1 'P' 'Q' ['3', '1'] ['5'] (by decide) (by decide) (by decide)
     (by decide) (by decide) (by decide),
   c8_row_grammar.2.2.2.1 "xyz".data rfl rfl⟩

/-- Claim C10 (amended): a non-bot run uses cap 1 and a 2000 ms
throttle, a bot run raises cap and maximum to 5 and the delay to 1 ms;
a cap value entered mid-run is first floored (`Math.floor`), the floored
value is applied exactly when it lies in `[1, max_concurrent]`, and a
value whose floor lies outside that range leaves the cap unchanged. -/
theorem c10_concurrency_config :
    alConfigForUser false = { max_concurrent := 1, concurrent := 1, delay := 2000 } ∧
    alConfigForUser true = { max_concurrent := 5, concurrent := 5, delay := 1 } ∧
    (∀ (x : ℚ) (cfg : ALConfig),
      (1 ≤ ⌊x⌋ ∧ ⌊x⌋ ≤ (cfg.max_concurrent : Int) →
        updateConcurrency x cfg = { cfg with concurrent := (⌊x⌋).toNat }) ∧
      (⌊x⌋ < 1 ∨ ⌊x⌋ > (cfg.max_concurrent : Int) →
        updateConcurrency x cfg = cfg)) := by
  refine ⟨rfl, rfl, fun x cfg => ⟨fun h => ?_, fun h => ?_⟩⟩
  · simp only [updateConcurrency]
    rw [if_neg (by omega)]
  · simp only [updateConcurrency]
    rw [if_pos (by omega)]

/-- Concrete instantiation of `c10_concurrency_config`: entering 3 with
cap 5 applies it; entering 0 is ignored. -/
theorem c10_concurrency_config_witness :
    updateConcurrency 3 { max_concurrent := 5, concurrent := 1, delay := 1 } =
      { max_concurrent := 5, concurrent := 3, delay := 1 } ∧
    updateConcurrency 0 { max_concurrent := 5, concurrent := 2, delay := 1 } =
      { max_concurrent := 5, concurrent := 2, delay := 1 } :=
  ⟨by
    have h := (c10_concurrency_config.2.2 3
      { max_concurrent := 5, concurrent := 1, delay := 1 }).1 (by norm_num)
    norm_num at h
    exact h,
   by
    have h := (c10_concurrency_config.2.2 0
      { max_concurrent := 5, concurrent := 2, delay := 1 }).2 (by norm_num)
    exact h⟩

/-- Counterexample to claim C10 as stated: the entered value 5.5 is not
an integer in the closed range `[1, 5]` (it exceeds 5 and is not an
integer), yet `updateConcurrency` does not leave the cap unchanged: it
applies `Math.floor(5.5) = 5`. -/
theorem c10_counterexample :
    (5 : ℚ) < (11 : ℚ) / 2 ∧ (¬ ∃ n : ℤ, (11 : ℚ) / 2 = (n : ℚ)) ∧
    updateConcurrency ((11 : ℚ) / 2) { max_concurrent := 5, concurrent := 2, delay := 1 } =
      { max_concurrent := 5, concurrent := 5, delay := 1 } := by
  refine ⟨by norm_num, ?_, ?_⟩
  · rintro ⟨n, hn⟩
    have h2 : (11 : ℚ) = 2 * (n : ℚ) := by
      field_simp at hn
      linarith
    have h3 : (11 : ℤ) = 2 * n := by exact_mod_cast h2
    omega
  · have h5 : ⌊(11 : ℚ) / 2⌋ = 5 := by norm_num
    simp only [updateConcurrency, h5]
    norm_num
    rfl

/-- Claim C5 evaluation at the failing inputs (code bug): the create
completion callback invoked with no result (network failure) throws a
`TypeError` instead of marking the descriptor done; so does a non-OK
string result carrying no `q`; a non-OK result that does carry a `q`
performs the identifier rewrite that the claim says must not happen.
Only the `no-external-page` error object behaves as the claim states. -/
theorem c5_create_failure_behavior :
    createCallback none = Except.error JsException.typeError ∧
    createCallback (some { error := JsErrorVal.str "failed", q := none }) =
      Except.error JsException.typeError ∧
    createCallback (some { error := JsErrorVal.str "failed", q := some "Q77" }) =
      Except.ok (CreateOutcome.rewriteAndFinish "77") ∧
    createCallback (some { error := JsErrorVal.obj "no-external-page", q := none }) =
      Except.ok CreateOutcome.finished := by
  exact ⟨rfl, rfl, rfl, rfl⟩

/-- Claim C9 evaluation (code bug): with a value filter the skip test
compares the numeric `numeric-id` loosely against the `Q`-prefixed
string, which is never equal, so even a claim whose value is exactly the
filtered one (`numeric-id` 5 vs filter `Q5`) is skipped and nothing is
ever removed; without a value filter the first claim of the property is
removed, and an empty claim list is a no-op. -/
theorem c9_delete_value_filter :
    selectClaimToRemove [{ id := "c1", numericId := some 5 }] (some "Q5".data) = none ∧
    selectClaimToRemove
      [{ id := "c1", numericId := some 5 }, { id := "c2", numericId := some 5 }]
      (some "Q5".data) = none ∧
    selectClaimToRemove
      [{ id := "c1", numericId := some 5 }, { id := "c2", numericId := some 7 }] none =
      some "c1" ∧
    selectClaimToRemove [] (some "Q5".data) = none := by
  refine ⟨by decide, by decide, rfl, rfl⟩

/-! ## Scan-loop lemmas -/

theorem scanLoop_fst_false_iff (qr : List String) :
    ∀ (cs : List Cmd) (k : Nat),
      ((scanLoop qr cs k).1 = false ↔ ∀ c ∈ cs, c.status = Status.done) := by
  intro cs
  induction cs with
  | nil => intro k; simp [scanLoop]
  | cons c cs ih =>
    intro k
    rcases hst : c.status with _ | _ | _
    · by_cases hc : c.q ∈ qr <;> simp [scanLoop, hst, hc]
    · simp [scanLoop, hst]
    · simp [scanLoop, hst, ih (k + 1)]

theorem scanLoop_snd_shift (qr : List String) :
    ∀ (cs : List Cmd) (k : Nat),
      (scanLoop qr cs (k + 1)).2 = ((scanLoop qr cs k).2).map (· + 1) := by
  intro cs
  induction cs with
  | nil => intro k; simp [scanLoop]
  | cons c cs ih =>
    intro k
    rcases hst : c.status with _ | _ | _
    · by_cases hc : c.q ∈ qr <;> simp [scanLoop, hst, hc, ih (k + 1)]
    · simp [scanLoop, hst, ih (k + 1)]
    · simp [scanLoop, hst, ih (k + 1)]

theorem scanSel_cons (qr : List String) (c : Cmd) (cs : List Cmd) :
    scanSel qr (c :: cs) =
      if c.status == Status.waiting && !(qr.contains c.q) then some 0
      else (scanSel qr cs).map (· + 1) := by
  rcases hst : c.status with _ | _ | _ <;>
    [skip; simp [scanSel, scanLoop, hst, scanLoop_snd_shift qr cs 0];
     simp [scanSel, scanLoop, hst, scanLoop_snd_shift qr cs 0]]
  by_cases hc : c.q ∈ qr <;>
    simp [scanSel, scanLoop, hst, hc, scanLoop_snd_shift qr cs 0]

theorem eligAt_cons_zero (qr : List String) (c : Cmd) (cs : List Cmd) :
    eligAt qr (c :: cs) 0 = (c.status == Status.waiting && !(qr.contains c.q)) := by
  simp [eligAt]

theorem eligAt_cons_succ (qr : List String) (c : Cmd) (cs : List Cmd) (j : Nat) :
    eligAt qr (c :: cs) (j + 1) = eligAt qr cs j := by
  simp [eligAt]

theorem scanSel_spec (qr : List String) :
    ∀ cs : List Cmd,
      (∀ k, scanSel qr cs = some k →
        eligAt qr cs k = true ∧ ∀ j, j < k → eligAt qr cs j = false) ∧
      (scanSel qr cs = none → ∀ j, eligAt qr cs j = false) := by
  intro cs
  induction cs with
  | nil =>
    constructor
    · intro k h; simp [scanSel, scanLoop] at h
    · intro _ j; simp [eligAt]
  | cons c cs ih =>
    by_cases hb : (c.status == Status.waiting && !(qr.contains c.q)) = true
    · constructor
      · intro k h
        rw [scanSel_cons, if_pos hb] at h
        obtain rfl : k = 0 := by simpa using h.symm
        exact ⟨by simpa [eligAt_cons_zero] using hb, fun j hj => absurd hj (Nat.not_lt_zero j)⟩
      · intro h
        rw [scanSel_cons, if_pos hb] at h
        simp at h
    · have hb' : (c.status == Status.waiting && !(qr.contains c.q)) = false :=
        Bool.not_eq_true _ ▸ Bool.of_not_eq_true hb
      constructor
      · intro k h
        rw [scanSel_cons, if_neg hb] at h
        obtain ⟨k', hk', rfl⟩ := Option.map_eq_some'.mp h
        obtain ⟨he, hlt⟩ := ih.1 k' hk'
        refine ⟨by simpa [eligAt_cons_succ] using he, ?_⟩
        intro j hj
        cases j with
        | zero => simpa [eligAt_cons_zero] using hb'
        | succ j => simpa [eligAt_cons_succ] using hlt j (Nat.lt_of_succ_lt_succ hj)
      · intro h j
        rw [scanSel_cons, if_neg hb] at h
        have hnone : scanSel qr cs = none := Option.map_eq_none'.mp h
        cases j with
        | zero => simpa [eligAt_cons_zero] using hb'
        | succ j => simpa [eligAt_cons_succ] using ih.2 hnone j

/-! ## Update lemmas for `setStatus` and `rewriteQ` -/

theorem length_setStatus : ∀ (cs : List Cmd) (k : Nat) (st : Status),
    (setStatus cs k st).length = cs.length := by
  intro cs
  induction cs with
  | nil => intro k st; rfl
  | cons c cs ih =>
    intro k st
    cases k with
    | zero => simp [setStatus]
    | succ k => simp [setStatus, ih]

theorem setStatus_getElem? : ∀ (cs : List Cmd) (k i : Nat) (st : Status),
    (setStatus cs k st)[i]? =
      if i = k then (cs[i]?).map (fun c => { c with status := st }) else cs[i]? := by
  intro cs
  induction cs with
  | nil => intro k i st; simp [setStatus]
  | cons c cs ih =>
    intro k i st
    cases k with
    | zero =>
      cases i with
      | zero => simp [setStatus]
      | succ i => simp [setStatus]
    | succ k =>
      cases i with
      | zero => simp [setStatus]
      | succ i => simpa [setStatus] using ih k i st

theorem setStatus_q (cs : List Cmd) (k : Nat) (st : Status) (i : Nat) :
    (((setStatus cs k st)[i]?).getD default).q = ((cs[i]?).getD default).q := by
  rw [setStatus_getElem?]
  split
  · cases cs[i]? <;> simp
  · rfl

theorem rewriteQ_getElem? (cs : List Cmd) (o n : String) (i : Nat) :
    (rewriteQ cs o n)[i]? =
      (cs[i]?).map (fun c => if c.q = o then { c with q := n } else c) := by
  simp [rewriteQ]

theorem eligAt_true_iff (qr : List String) (cs : List Cmd) (k : Nat) :
    eligAt qr cs k = true ↔
      ∃ c, cs[k]? = some c ∧ c.status = Status.waiting ∧ c.q ∉ qr := by
  unfold eligAt
  cases h : cs[k]? <;> simp [h]

theorem not_mem_qRunning_iff (s : State) (x : String) :
    x ∉ qRunning s ↔ ∀ i ∈ s.running, ((s.commands[i]?).getD default).q ≠ x := by
  simp [qRunning]

/-! ## Invariant preservation -/

theorem schedInv_mkStart (cs : List Cmd) (cap : Nat) : SchedInv (mkStart cs cap) := by
  refine ⟨List.nodup_nil, ?_, ?_, List.Pairwise.nil, by simp [mkStart]⟩
  · intro i hi
    simp [mkStart] at hi
  · intro k c hk hst
    simp only [mkStart, List.getElem?_map] at hk
    cases h : cs[k]? with
    | none => rw [h] at hk; simp at hk
    | some c₀ =>
      rw [h] at hk
      simp at hk
      rw [← hk] at hst
      simp at hst

/-! ## Branch equations for `runNextCommand` -/

theorem runNextCommand_stop {s : State} (h : s.stop = true) :
    runNextCommand s = (s, false) := by
  simp [runNextCommand, h]

theorem runNextCommand_overCap {s : State} (h : s.concurrent ≤ s.running.length) :
    runNextCommand s = (s, false) := by
  by_cases hstop : s.stop
  · simp [runNextCommand, hstop]
  · simp [runNextCommand, hstop, h]

theorem runNextCommand_fired {s : State} (h1 : s.stop = false)
    (h2 : ¬ s.concurrent ≤ s.running.length)
    (h3 : (scanLoop (qRunning s) s.commands 0).1 = false) :
    runNextCommand s = (s, true) := by
  simp [runNextCommand, h1, h2, h3]

theorem runNextCommand_idle {s : State} (h1 : s.stop = false)
    (h2 : ¬ s.concurrent ≤ s.running.length)
    (h3 : (scanLoop (qRunning s) s.commands 0).1 = true)
    (h4 : (scanLoop (qRunning s) s.commands 0).2 = none) :
    runNextCommand s = (s, false) := by
  simp [runNextCommand, h1, h2, h3, h4]

theorem runNextCommand_dispatch {s : State} {k : Nat} (h1 : s.stop = false)
    (h2 : ¬ s.concurrent ≤ s.running.length)
    (h3 : (scanLoop (qRunning s) s.commands 0).1 = true)
    (h4 : (scanLoop (qRunning s) s.commands 0).2 = some k) :
    runNextCommand s = (runCommandStep s k, false) := by
  simp [runNextCommand, h1, h2, h3, h4]

theorem schedInv_dispatch {s : State} {k : Nat} (h : SchedInv s)
    (hcapl : ¬ s.concurrent ≤ s.running.length)
    (heq : scanSel (qRunning s) s.commands = some k) :
    SchedInv (runCommandStep s k) := by
  obtain ⟨hnd, hmem, hrun, hpw, hcap⟩ := h
  have helig := (scanSel_spec (qRunning s) s.commands).1 k heq
  obtain ⟨c, hck, hcw, hcq⟩ := (eligAt_true_iff _ _ _).mp helig.1
  have hknotin : k ∉ s.running := by
    intro hk
    obtain ⟨c', hc', hc's⟩ := hmem k hk
    rw [hck] at hc'
    rw [← Option.some.inj hc'] at hc's
    rw [hcw] at hc's
    exact Status.noConfusion hc's
  have hq_k : ((s.commands[k]?).getD default).q = c.q := by rw [hck]; rfl
  have hqne := (not_mem_qRunning_iff s c.q).mp hcq
  refine ⟨?_, ?_, ?_, ?_, ?_⟩
  · simp only [runCommandStep]
    rw [List.nodup_append]
    exact ⟨hnd, List.nodup_singleton k, by simpa using hknotin⟩
  · intro i hi
    simp only [runCommandStep] at hi ⊢
    rw [setStatus_getElem?]
    rcases List.mem_append.mp hi with hi | hi
    · have hne : i ≠ k := fun he => hknotin (he ▸ hi)
      rw [if_neg hne]
      exact hmem i hi
    · have he : i = k := by simpa using hi
      subst he
      rw [if_pos rfl, hck]
      exact ⟨_, rfl, rfl⟩
  · intro j c' hj hc's
    simp only [runCommandStep] at hj ⊢
    rw [setStatus_getElem?] at hj
    by_cases hjk : j = k
    · exact List.mem_append.mpr (Or.inr (by simp [hjk]))
    · rw [if_neg hjk] at hj
      exact List.mem_append.mpr (Or.inl (hrun j c' hj hc's))
  · simp only [runCommandStep]
    rw [List.pairwise_append]
    refine ⟨hpw.imp ?_, List.pairwise_singleton _ _, ?_⟩
    · intro a b hab
      simpa [setStatus_q] using hab
    · intro i hi b hb
      have hbk : b = k := by simpa using hb
      subst hbk
      rw [setStatus_q, setStatus_q, hq_k]
      exact hqne i hi
  · simp only [runCommandStep]
    rw [List.length_append]
    simp only [List.length_singleton]
    omega

theorem schedInv_runNextCommand {s : State} (h : SchedInv s) :
    SchedInv (runNextCommand s).1 := by
  by_cases hstop : s.stop
  · rw [runNextCommand_stop hstop]; exact h
  have hstop' : s.stop = false := by simpa using hstop
  by_cases hcapl : s.concurrent ≤ s.running.length
  · rw [runNextCommand_overCap hcapl]; exact h
  cases hfl : (scanLoop (qRunning s) s.commands 0).1 with
  | false => rw [runNextCommand_fired hstop' hcapl hfl]; exact h
  | true =>
    cases hsel : (scanLoop (qRunning s) s.commands 0).2 with
    | none => rw [runNextCommand_idle hstop' hcapl hfl hsel]; exact h
    | some k =>
      rw [runNextCommand_dispatch hstop' hcapl hfl hsel]
      exact schedInv_dispatch ⟨h.1, h.2.1, h.2.2.1, h.2.2.2.1, h.2.2.2.2⟩ hcapl hsel

theorem schedInv_finish_general {s : State} (cs' : List Cmd) (id : Nat)
    (h : SchedInv s) (hlen : cs'.length = s.commands.length)
    (hq : ∀ i ∈ s.running, i ≠ id →
      ((cs'[i]?).getD default).q = ((s.commands[i]?).getD default).q)
    (hstat : ∀ i, i ≠ id →
      ∀ c', cs'[i]? = some c' → ∃ c, s.commands[i]? = some c ∧ c'.status = c.status)
    (hdone : ∀ c', cs'[id]? = some c' → c'.status = Status.done) :
    SchedInv { s with commands := cs',
                      running := s.running.filter (fun v => v != id),
                      pending := s.pending + 1 } := by
  obtain ⟨hnd, hmem, hrun, hpw, hcap⟩ := h
  refine ⟨hnd.filter _, ?_, ?_, ?_, ?_⟩
  · intro i hi
    rw [List.mem_filter] at hi
    obtain ⟨hi, hine⟩ := hi
    have hine' : i ≠ id := by simpa using hine
    obtain ⟨c, hc, hcs⟩ := hmem i hi
    cases hci : cs'[i]? with
    | none =>
      exfalso
      have h1 : cs'.length ≤ i := List.getElem?_eq_none_iff.mp hci
      have h2 : ¬ s.commands.length ≤ i := by
        intro hge
        rw [List.getElem?_eq_none_iff.mpr hge] at hc
        exact Option.noConfusion hc
      omega
    | some c' =>
      obtain ⟨c₀, hc₀, hst⟩ := hstat i hine' c' hci
      rw [hc] at hc₀
      have hcc : c = c₀ := Option.some.inj hc₀
      exact ⟨c', rfl, by rw [hst, ← hcc, hcs]⟩
  · intro j c' hj hc's
    by_cases hjid : j = id
    · subst hjid
      rw [hdone c' hj] at hc's
      exact Status.noConfusion hc's
    · obtain ⟨c, hc, hst⟩ := hstat j hjid c' hj
      have hjr : j ∈ s.running := hrun j c hc (by rw [← hst, hc's])
      rw [List.mem_filter]
      exact ⟨hjr, by simpa using hjid⟩
  · refine (hpw.filter _).imp_of_mem ?_
    intro a b ha hb hab
    rw [List.mem_filter] at ha hb
    have ha' : a ≠ id := by simpa using ha.2
    have hb' : b ≠ id := by simpa using hb.2
    rw [hq a ha.1 ha', hq b hb.1 hb']
    exact hab
  · exact le_trans (List.length_filter_le _ _) hcap

theorem schedInv_finishCommand {s : State} {id : Nat} (h : SchedInv s) :
    SchedInv (finishCommand s id) := by
  refine schedInv_finish_general _ id h (length_setStatus _ _ _) ?_ ?_ ?_
  · intro i _ _
    exact setStatus_q _ _ _ _
  · intro i hine c' hci
    rw [setStatus_getElem?, if_neg hine] at hci
    exact ⟨c', hci, rfl⟩
  · intro c' hci
    rw [setStatus_getElem?, if_pos rfl] at hci
    cases hc : s.commands[id]? with
    | none => rw [hc] at hci; exact Option.noConfusion hci
    | some c =>
      rw [hc] at hci
      rw [← Option.some.inj hci]

theorem rewriteQ_length (cs : List Cmd) (o n : String) :
    (rewriteQ cs o n).length = cs.length := by
  simp [rewriteQ]

theorem schedInv_completeCreate {s : State} {id : Nat} {newQ : String} (h : SchedInv s)
    (hid : id ∈ s.running) :
    SchedInv (finishCommand
      { s with commands :=
          rewriteQ s.commands ((s.commands[id]?).getD default).q newQ } id) := by
  obtain ⟨c₀, hc₀, -⟩ := h.2.1 id hid
  have hq_id : ((s.commands[id]?).getD default).q = c₀.q := by rw [hc₀]; rfl
  refine schedInv_finish_general (s := s)
    (setStatus (rewriteQ s.commands ((s.commands[id]?).getD default).q newQ) id
      Status.done) id h ?_ ?_ ?_ ?_
  · rw [length_setStatus, rewriteQ_length]
  · intro i hi hine
    rw [setStatus_q, rewriteQ_getElem?]
    obtain ⟨ci, hci, -⟩ := h.2.1 i hi
    rw [hci]
    have hqne : ci.q ≠ ((s.commands[id]?).getD default).q := by
      rw [hq_id]
      have hsymm : Symmetric (fun i j : Nat =>
          ((s.commands[i]?).getD default).q ≠ ((s.commands[j]?).getD default).q) := by
        intro a b hab
        exact hab.symm
      have := (h.2.2.2.1.forall hsymm) hi hid hine
      rw [hci] at this
      rw [hc₀] at this
      exact this
    simp [hqne]
  · intro i hine c' hci
    rw [setStatus_getElem?, if_neg hine, rewriteQ_getElem?] at hci
    cases hc : s.commands[i]? with
    | none => rw [hc] at hci; exact Option.noConfusion hci
    | some c =>
      rw [hc] at hci
      simp only [Option.map_some'] at hci
      refine ⟨c, rfl, ?_⟩
      rw [← Option.some.inj hci]
      split <;> rfl
  · intro c' hci
    rw [setStatus_getElem?, if_pos rfl, rewriteQ_getElem?] at hci
    cases hc : s.commands[id]? with
    | none => rw [hc] at hci; exact Option.noConfusion hci
    | some c =>
      rw [hc] at hci
      simp only [Option.map_some', Option.map_map] at hci
      rw [← Option.some.inj hci]

theorem mem_of_contains {l : List Nat} {a : Nat} (h : l.contains a = true) : a ∈ l := by
  simpa using h

theorem schedInv_stepA {s : State} {a : Act} {r : State × Bool}
    (h : SchedInv s) (hst : stepA a s = some r) : SchedInv r.1 := by
  cases a with
  | rnc =>
    simp only [stepA] at hst
    split at hst
    · exact Option.noConfusion hst
    · rw [← Option.some.inj hst]
      exact schedInv_runNextCommand (s := { s with pending := s.pending - 1 }) h
  | completePlain id =>
    simp only [stepA] at hst
    split at hst
    · rw [← Option.some.inj hst]
      exact schedInv_finishCommand h
    · exact Option.noConfusion hst
  | completeCreate id newQ =>
    simp only [stepA] at hst
    split at hst
    · next hcond =>
      rw [← Option.some.inj hst]
      exact schedInv_completeCreate h (mem_of_contains hcond.1)
    · exact Option.noConfusion hst
  | stopClick =>
    simp only [stepA] at hst
    rw [← Option.some.inj hst]
    exact h

theorem schedInv_reachable {s t : State} (h0 : SchedInv s) (hr : Reachable s t) :
    SchedInv t := by
  induction hr with
  | refl => exact h0
  | tail _ hstep ih =>
    obtain ⟨a, r, hstepA, hr1⟩ := hstep
    rw [← hr1]
    exact schedInv_stepA ih hstepA

/-- If an invocation of `runNextCommand` appended `k` to the running
list, then `k` was the index selected by the scan. -/
theorem dispatch_selected {s : State} {k : Nat}
    (h : (runNextCommand s).1.running = s.running ++ [k]) :
    scanSel (qRunning s) s.commands = some k := by
  by_cases hstop : s.stop
  · rw [runNextCommand_stop hstop] at h
    exact absurd (congrArg List.length h) (by simp)
  have hstop' : s.stop = false := by simpa using hstop
  by_cases hcapl : s.concurrent ≤ s.running.length
  · rw [runNextCommand_overCap hcapl] at h
    exact absurd (congrArg List.length h) (by simp)
  cases hfl : (scanLoop (qRunning s) s.commands 0).1 with
  | false =>
    rw [runNextCommand_fired hstop' hcapl hfl] at h
    exact absurd (congrArg List.length h) (by simp)
  | true =>
    cases hsel : (scanLoop (qRunning s) s.commands 0).2 with
    | none =>
      rw [runNextCommand_idle hstop' hcapl hfl hsel] at h
      exact absurd (congrArg List.length h) (by simp)
    | some k' =>
      rw [runNextCommand_dispatch hstop' hcapl hfl hsel] at h
      simp only [runCommandStep] at h
      have hk : k' = k := by simpa using h
      rw [← hk]
      exact hsel

/-- Claim C1: per-entity mutual exclusion.  At every reachable state of
a run at most one descriptor with a given `entity_ref` has status
`'running'`; moreover a completion step removes the finished descriptor
from the running set, and the dispatch step only ever appends a
descriptor that is `waiting` and whose `q` is shared by no member of the
running set. -/
theorem c1_per_entity_mutex :
    (∀ (cs : List Cmd) (cap : Nat) (s : State),
      Reachable (mkStart cs cap) s → MutexProp s) ∧
    (∀ (s : State) (id : Nat) (r : State × Bool),
      stepA (Act.completePlain id) s = some r → id ∉ r.1.running) ∧
    (∀ (s : State) (k : Nat), (runNextCommand s).1.running = s.running ++ [k] →
      eligAt (qRunning s) s.commands k = true) := by
  refine ⟨?_, ?_, ?_⟩
  · intro cs cap s hr
    have hinv := schedInv_reachable (schedInv_mkStart cs cap) hr
    intro i j ci cj hci hcj hsi hsj hij
    have hi : i ∈ s.running := hinv.2.2.1 i ci hci hsi
    have hj : j ∈ s.running := hinv.2.2.1 j cj hcj hsj
    have hsymm : Symmetric (fun a b : Nat =>
        ((s.commands[a]?).getD default).q ≠ ((s.commands[b]?).getD default).q) := by
      intro a b hab
      exact hab.symm
    have hne := (hinv.2.2.2.1.forall hsymm) hi hj hij
    rw [hci, hcj] at hne
    exact hne
  · intro s id r hst
    simp only [stepA] at hst
    split at hst
    · rw [← Option.some.inj hst]
      simp only [finishCommand]
      intro hmem
      rw [List.mem_filter] at hmem
      simp at hmem
    · exact Option.noConfusion hst
  · intro s k h
    exact ((scanSel_spec (qRunning s) s.commands).1 k (dispatch_selected h)).1

/-- Concrete instantiation of `c1_per_entity_mutex`: the start state of
a two-descriptor run satisfies the mutual-exclusion property, and the
descriptor dispatched first from it is eligible. -/
theorem c1_per_entity_mutex_witness :
    MutexProp (mkStart
      [{ q := "Q1", mode := Mode.add, status := Status.waiting },
       { q := "Q2", mode := Mode.add, status := Status.waiting }] 2) ∧
    eligAt
      (qRunning (mkStart
        [{ q := "Q1", mode := Mode.add, status := Status.waiting },
         { q := "Q2", mode := Mode.add, status := Status.waiting }] 2))
      (mkStart
        [{ q := "Q1", mode := Mode.add, status := Status.waiting },
         { q := "Q2", mode := Mode.add, status := Status.waiting }] 2).commands 0 :=
  ⟨c1_per_entity_mutex.1 _ 2 _ Relation.ReflTransGen.refl,
   c1_per_entity_mutex.2.2 _ 0 (by decide)⟩

/-- Claim C2: the running count never exceeds the configured cap at any
reachable state of a run (the initial kick consists of reachable
dispatch steps, so it dispatches at most cap descriptors), and the
dispatch step performs no dispatch at all — it returns the state
unchanged — while the running count is at or above the cap. -/
theorem c2_concurrency_cap :
    (∀ (cs : List Cmd) (cap : Nat) (s : State),
      Reachable (mkStart cs cap) s → s.running.length ≤ s.concurrent) ∧
    (∀ s : State, s.concurrent ≤ s.running.length → runNextCommand s = (s, false)) := by
  refine ⟨?_, ?_⟩
  · intro cs cap s hr
    exact (schedInv_reachable (schedInv_mkStart cs cap) hr).2.2.2.2
  · intro s h
    exact runNextCommand_overCap h

/-- Concrete instantiation of `c2_concurrency_cap`. -/
theorem c2_concurrency_cap_witness :
    (mkStart [{ q := "Q1", mode := Mode.add, status := Status.waiting }] 1).running.length ≤
      (mkStart [{ q := "Q1", mode := Mode.add, status := Status.waiting }] 1).concurrent ∧
    runNextCommand
      { commands := [{ q := "Q1", mode := Mode.add, status := Status.running }],
        running := [0], concurrent := 1, stop := false, pending := 1 } =
      ({ commands := [{ q := "Q1", mode := Mode.add, status := Status.running }],
         running := [0], concurrent := 1, stop := false, pending := 1 }, false) :=
  ⟨c2_concurrency_cap.1 _ 1 _ Relation.ReflTransGen.refl,
   c2_concurrency_cap.2 _ (by decide)⟩

/-- Claim C3: the dispatch scan selects exactly the first descriptor in
list order that is `waiting` with an entity reference shared by no
running descriptor; when it selects nothing, no descriptor is eligible;
the selection depends only on the descriptor list and the running set
(it is a pure function of them); and whatever index an invocation of
`runNextCommand` actually dispatches was the scan's selection. -/
theorem c3_first_match_selection :
    (∀ (qr : List String) (cs : List Cmd) (k : Nat), scanSel qr cs = some k →
      eligAt qr cs k = true ∧ ∀ j, j < k → eligAt qr cs j = false) ∧
    (∀ (qr : List String) (cs : List Cmd), scanSel qr cs = none →
      ∀ j, eligAt qr cs j = false) ∧
    (∀ s t : State, s.commands = t.commands → s.running = t.running →
      scanSel (qRunning s) s.commands = scanSel (qRunning t) t.commands) ∧
    (∀ (s : State) (k : Nat), (runNextCommand s).1.running = s.running ++ [k] →
      scanSel (qRunning s) s.commands = some k) := by
  refine ⟨?_, ?_, ?_, ?_⟩
  · intro qr cs k h
    exact (scanSel_spec qr cs).1 k h
  · intro qr cs h
    exact (scanSel_spec qr cs).2 h
  · intro s t h1 h2
    simp [qRunning, h1, h2]
  · intro s k h
    exact dispatch_selected h

/-- Concrete instantiation of `c3_first_match_selection`: with `Q1`
running, the scan of `[Q1-waiting, Q2-waiting]` selects index 1, which
is eligible while index 0 is not. -/
theorem c3_first_match_selection_witness :
    eligAt ["Q1"]
      [{ q := "Q1", mode := Mode.add, status := Status.waiting },
       { q := "Q2", mode := Mode.add, status := Status.waiting }] 1 = true ∧
    eligAt ["Q1"]
      [{ q := "Q1", mode := Mode.add, status := Status.waiting },
       { q := "Q2", mode := Mode.add, status := Status.waiting }] 0 = false :=
  ⟨(c3_first_match_selection.1 ["Q1"] _ 1 (by decide)).1,
   (c3_first_match_selection.1 ["Q1"] _ 1 (by decide)).2 0 (by decide)⟩

/-- Claim C6 (amended): an invocation of the dispatch step calls
`allDone()` exactly when the stop flag is unset, the running count is
below the cap, and no descriptor with status other than `'done'`
remains; the source has no once-only guard, so with cap greater than 1
several queued dispatch invocations arriving after the last completion
each fire the signal again (see the counterexample). -/
theorem c6_completion_signal :
    ∀ s : State, (runNextCommand s).2 = true ↔
      (s.stop = false ∧ s.running.length < s.concurrent ∧
        ∀ c ∈ s.commands, c.status = Status.done) := by
  intro s
  by_cases hstop : s.stop
  · rw [runNextCommand_stop hstop]
    simp [hstop]
  have hstop' : s.stop = false := by simpa using hstop
  by_cases hcapl : s.concurrent ≤ s.running.length
  · rw [runNextCommand_overCap hcapl]
    simp [hstop', hcapl, Nat.not_lt.mpr hcapl]
  cases hfl : (scanLoop (qRunning s) s.commands 0).1 with
  | false =>
    rw [runNextCommand_fired hstop' hcapl hfl]
    constructor
    · intro _
      exact ⟨hstop', Nat.lt_of_not_le hcapl,
        (scanLoop_fst_false_iff (qRunning s) s.commands 0).mp hfl⟩
    · intro _
      rfl
  | true =>
    have hnotall : ¬ ∀ c ∈ s.commands, c.status = Status.done := by
      intro hall
      rw [(scanLoop_fst_false_iff (qRunning s) s.commands 0).mpr hall] at hfl
      exact Bool.noConfusion hfl
    cases hsel : (scanLoop (qRunning s) s.commands 0).2 with
    | none =>
      rw [runNextCommand_idle hstop' hcapl hfl hsel]
      simp [hnotall]
    | some k =>
      rw [runNextCommand_dispatch hstop' hcapl hfl hsel]
      simp [hnotall]

/-- Counterexample to claim C6 as stated: a run of two descriptors for
distinct entities with cap 2 and no stop click in which both completions
land before either of their delayed dispatch invocations runs; the two
trailing dispatch invocations then each call `allDone()`, so the signal
fires twice in one non-cancelled run. -/
theorem c6_counterexample :
    (execTrace (mkStart
        [{ q := "Q1", mode := Mode.add, status := Status.waiting },
         { q := "Q2", mode := Mode.add, status := Status.waiting }] 2)
      [Act.rnc, Act.rnc, Act.completePlain 0, Act.completePlain 1,
       Act.rnc, Act.rnc]).map (fun p => p.2) = some 2 ∧
    Act.stopClick ∉ [Act.rnc, Act.rnc, Act.completePlain 0, Act.completePlain 1,
      Act.rnc, Act.rnc] := by
  exact ⟨by decide, by decide⟩

/-- A dispatch invocation never changes any descriptor's entity
reference (it only flips one status to `'running'`). -/
theorem rnc_q (s : State) (k : Nat) (c : Cmd) (hc : s.commands[k]? = some c) :
    ∃ c', (runNextCommand s).1.commands[k]? = some c' ∧ c'.q = c.q := by
  by_cases hstop : s.stop
  · rw [runNextCommand_stop hstop]; exact ⟨c, hc, rfl⟩
  have hstop' : s.stop = false := by simpa using hstop
  by_cases hcapl : s.concurrent ≤ s.running.length
  · rw [runNextCommand_overCap hcapl]; exact ⟨c, hc, rfl⟩
  cases hfl : (scanLoop (qRunning s) s.commands 0).1 with
  | false => rw [runNextCommand_fired hstop' hcapl hfl]; exact ⟨c, hc, rfl⟩
  | true =>
    cases hsel : (scanLoop (qRunning s) s.commands 0).2 with
    | none => rw [runNextCommand_idle hstop' hcapl hfl hsel]; exact ⟨c, hc, rfl⟩
    | some k' =>
      rw [runNextCommand_dispatch hstop' hcapl hfl hsel]
      simp only [runCommandStep]
      rw [setStatus_getElem?]
      by_cases hk : k = k'
      · subst hk; rw [if_pos rfl, hc]; exact ⟨_, rfl, rfl⟩
      · rw [if_neg hk]; exact ⟨c, hc, rfl⟩

/-- A step that is not a successful create completion never changes any
descriptor's entity reference. -/
theorem stepNC_preserves_q {s s' : State} (h : StepRelNC s s') :
    ∀ (k : Nat) (c : Cmd), s.commands[k]? = some c →
      ∃ c', s'.commands[k]? = some c' ∧ c'.q = c.q := by
  obtain ⟨a, r, hnc, hst, hr1⟩ := h
  subst hr1
  intro k c hc
  cases a with
  | rnc =>
    simp only [stepA] at hst
    split at hst
    · exact Option.noConfusion hst
    · rw [← Option.some.inj hst]
      exact rnc_q { s with pending := s.pending - 1 } k c hc
  | completePlain id =>
    simp only [stepA] at hst
    split at hst
    · rw [← Option.some.inj hst]
      simp only [finishCommand]
      rw [setStatus_getElem?]
      by_cases hk : k = id
      · subst hk; rw [if_pos rfl, hc]; exact ⟨_, rfl, rfl⟩
      · rw [if_neg hk]; exact ⟨c, hc, rfl⟩
    · exact Option.noConfusion hst
  | completeCreate id newQ => exact absurd rfl (hnc id newQ)
  | stopClick =>
    simp only [stepA] at hst
    rw [← Option.some.inj hst]
    exact ⟨c, hc, rfl⟩

/-- Entity references are stable along any run fragment free of create
completions. -/
theorem reachNC_preserves_q {s t : State} (h : ReachableNC s t) :
    ∀ (k : Nat) (c : Cmd), s.commands[k]? = some c →
      ∃ c', t.commands[k]? = some c' ∧ c'.q = c.q := by
  induction h with
  | refl => exact fun k c hc => ⟨c, hc, rfl⟩
  | tail _ hstep ih =>
    intro k c hc
    obtain ⟨c', hc', hq'⟩ := ih k c hc
    obtain ⟨c'', hc'', hq''⟩ := stepNC_preserves_q hstep k c' hc'
    exact ⟨c'', hc'', by rw [hq'', hq']⟩

/-- Claim C4: when a `create` descriptor completes successfully with
concrete id `newQ`, the completion step itself rewrites every descriptor
whose current entity reference equals the create's placeholder to
`newQ`; since no dispatch step (and no other kind of completion) ever
changes an entity reference, every descriptor formerly holding the
placeholder that is dispatched after this completion is dispatched with
reference `newQ`. -/
theorem c4_identifier_propagation :
    ∀ (s : State) (id : Nat) (newQ : String) (r : State × Bool),
      stepA (Act.completeCreate id newQ) s = some r →
      ((∀ (k : Nat) (c : Cmd), s.commands[k]? = some c →
          c.q = ((s.commands[id]?).getD default).q →
          ∃ c', r.1.commands[k]? = some c' ∧ c'.q = newQ) ∧
       (∀ t : State, ReachableNC r.1 t → ∀ (k : Nat) (c' : Cmd),
          r.1.commands[k]? = some c' →
          ∃ c'', t.commands[k]? = some c'' ∧ c''.q = c'.q)) := by
  intro s id newQ r hst
  constructor
  · intro k c hc hq
    simp only [stepA] at hst
    split at hst
    · rw [← Option.some.inj hst]
      simp only [finishCommand]
      rw [setStatus_getElem?]
      by_cases hk : k = id
      · subst hk
        rw [if_pos rfl, rewriteQ_getElem?, hc]
        simp only [Option.map_some']
        exact ⟨_, rfl, by simp [hq]⟩
      · rw [if_neg hk, rewriteQ_getElem?, hc]
        simp only [Option.map_some']
        exact ⟨_, rfl, by simp [hq]⟩
    · exact Option.noConfusion hst
  · intro t ht k c' hc'
    exact reachNC_preserves_q ht k c' hc'

/-- Concrete instantiation of `c4_identifier_propagation`: completing
the create for placeholder `TEMP` with id `123` rewrites the waiting
follower at index 1 to `q = "123"`. -/
theorem c4_identifier_propagation_witness :
    ∃ c', (finishCommand
      { commands := rewriteQ
          [{ q := "TEMP", mode := Mode.create, status := Status.running },
           { q := "TEMP", mode := Mode.add, status := Status.waiting }] "TEMP" "123",
        running := [0], concurrent := 1, stop := false, pending := 0 } 0).commands[1]? =
      some c' ∧ c'.q = "123" := by
  have h := (c4_identifier_propagation
    { commands := [{ q := "TEMP", mode := Mode.create, status := Status.running },
                   { q := "TEMP", mode := Mode.add, status := Status.waiting }],
      running := [0], concurrent := 1, stop := false, pending := 0 }
    0 "123" _ rfl).1 1
    { q := "TEMP", mode := Mode.add, status := Status.waiting } rfl rfl
  exact h

/-- The stop flag, once set, is never cleared by any scheduler step
within the run. -/
theorem stop_flag_monotone {s : State} {a : Act} {r : State × Bool}
    (hstop : s.stop = true) (hst : stepA a s = some r) : r.1.stop = true := by
  cases a with
  | rnc =>
    simp only [stepA] at hst
    split at hst
    · exact Option.noConfusion hst
    · rw [← Option.some.inj hst]
      rw [runNextCommand_stop (s := { s with pending := s.pending - 1 }) hstop]
      exact hstop
  | completePlain id =>
    simp only [stepA] at hst
    split at hst
    · rw [← Option.some.inj hst]; exact hstop
    · exact Option.noConfusion hst
  | completeCreate id newQ =>
    simp only [stepA] at hst
    split at hst
    · rw [← Option.some.inj hst]; exact hstop
    · exact Option.noConfusion hst
  | stopClick =>
    simp only [stepA] at hst
    rw [← Option.some.inj hst]

/-- With the stop flag set, no single step turns a `waiting` descriptor
into anything else: dispatch is disabled and completions only touch
descriptors that are `running`. -/
theorem step_waiting_frozen {s s' : State} (hinv : SchedInv s) (hstop : s.stop = true)
    (hstep : StepRel s s') :
    ∀ (i : Nat) (c : Cmd), s.commands[i]? = some c → c.status = Status.waiting →
      ∃ c', s'.commands[i]? = some c' ∧ c'.status = Status.waiting := by
  obtain ⟨a, r, hst, hr1⟩ := hstep
  subst hr1
  intro i c hc hw
  cases a with
  | rnc =>
    simp only [stepA] at hst
    split at hst
    · exact Option.noConfusion hst
    · rw [← Option.some.inj hst]
      rw [runNextCommand_stop (s := { s with pending := s.pending - 1 }) hstop]
      exact ⟨c, hc, hw⟩
  | completePlain id =>
    simp only [stepA] at hst
    split at hst
    · next hcond =>
      have hid := mem_of_contains hcond
      obtain ⟨cid, hcid, hcsid⟩ := hinv.2.1 id hid
      have hik : i ≠ id := by
        intro he
        subst he
        rw [hc] at hcid
        rw [← Option.some.inj hcid] at hcsid
        rw [hw] at hcsid
        exact Status.noConfusion hcsid
      rw [← Option.some.inj hst]
      simp only [finishCommand]
      rw [setStatus_getElem?, if_neg hik]
      exact ⟨c, hc, hw⟩
    · exact Option.noConfusion hst
  | completeCreate id newQ =>
    simp only [stepA] at hst
    split at hst
    · next hcond =>
      have hid := mem_of_contains hcond.1
      obtain ⟨cid, hcid, hcsid⟩ := hinv.2.1 id hid
      have hik : i ≠ id := by
        intro he
        subst he
        rw [hc] at hcid
        rw [← Option.some.inj hcid] at hcsid
        rw [hw] at hcsid
        exact Status.noConfusion hcsid
      rw [← Option.some.inj hst]
      simp only [finishCommand]
      rw [setStatus_getElem?, if_neg hik, rewriteQ_getElem?, hc]
      simp only [Option.map_some']
      refine ⟨_, rfl, ?_⟩
      split <;> exact hw
    · exact Option.noConfusion hst
  | stopClick =>
    simp only [stepA] at hst
    rw [← Option.some.inj hst]
    exact ⟨c, hc, hw⟩

/-- Along any continuation of a stopped run, the flag stays set, the
invariant is maintained, and every descriptor that was `waiting` at the
moment the flag was set is still `waiting`. -/
theorem stopped_reach_waiting_frozen {s t : State} (hinv : SchedInv s)
    (hstop : s.stop = true) (hr : Reachable s t) :
    t.stop = true ∧ SchedInv t ∧
      ∀ (i : Nat) (c : Cmd), s.commands[i]? = some c → c.status = Status.waiting →
        ∃ c', t.commands[i]? = some c' ∧ c'.status = Status.waiting := by
  induction hr with
  | refl => exact ⟨hstop, hinv, fun i c hc hw => ⟨c, hc, hw⟩⟩
  | tail hr' hstep ih =>
    obtain ⟨hstopm, hinvm, hpres⟩ := ih
    obtain ⟨a, r, hst, hr1⟩ := hstep
    refine ⟨?_, ?_, ?_⟩
    · rw [← hr1]; exact stop_flag_monotone hstopm hst
    · rw [← hr1]; exact schedInv_stepA hinvm hst
    · intro i c hc hw
      obtain ⟨c', hc', hw'⟩ := hpres i c hc hw
      exact step_waiting_frozen hinvm hstopm ⟨a, r, hst, hr1⟩ i c' hc' hw'

/-- Claim C7: cooperative cancellation.  With the stop flag set the
dispatch step does nothing, so no descriptor `waiting` at the moment of
cancellation ever becomes `running` in the rest of the run; completion
handling of in-flight descriptors is unaffected by the flag (each still
reaches `'done'` through `finishCommand`); and the flag, once set, is
never reset by any step of the run. -/
theorem c7_cooperative_cancellation :
    (∀ s : State, s.stop = true → runNextCommand s = (s, false)) ∧
    (∀ (cs : List Cmd) (cap : Nat) (s t : State),
      Reachable (mkStart cs cap) s → s.stop = true → Reachable s t →
      ∀ (i : Nat) (c : Cmd), s.commands[i]? = some c → c.status = Status.waiting →
        ∃ c', t.commands[i]? = some c' ∧ c'.status = Status.waiting) ∧
    (∀ (s : State) (id : Nat) (c : Cmd), id ∈ s.running → s.commands[id]? = some c →
      stepA (Act.completePlain id) s = some (finishCommand s id, false) ∧
      (finishCommand s id).commands[id]? = some { c with status := Status.done } ∧
      (finishCommand s id).stop = s.stop) ∧
    (∀ (s : State) (a : Act) (r : State × Bool), s.stop = true → stepA a s = some r →
      r.1.stop = true) := by
  refine ⟨fun s h => runNextCommand_stop h, ?_, ?_,
    fun s a r h1 h2 => stop_flag_monotone h1 h2⟩
  · intro cs cap s t hrs hstop hrt i c hc hw
    exact (stopped_reach_waiting_frozen
      (schedInv_reachable (schedInv_mkStart cs cap) hrs) hstop hrt).2.2 i c hc hw
  · intro s id c hid hc
    refine ⟨?_, ?_, rfl⟩
    · simp only [stepA]
      rw [if_pos (by simpa using hid)]
    · simp only [finishCommand]
      rw [setStatus_getElem?, if_pos rfl, hc]
      rfl

/-- Concrete instantiation of `c7_cooperative_cancellation`: a stopped
state dispatches nothing, and completing the one running descriptor of a
stopped state marks it done while leaving the flag set. -/
theorem c7_cooperative_cancellation_witness :
    runNextCommand
      { commands := [{ q := "Q1", mode := Mode.add, status := Status.waiting }],
        running := [], concurrent := 1, stop := true, pending := 1 } =
      ({ commands := [{ q := "Q1", mode := Mode.add, status := Status.waiting }],
         running := [], concurrent := 1, stop := true, pending := 1 }, false) ∧
    (finishCommand
      { commands := [{ q := "Q1", mode := Mode.add, status := Status.running }],
        running := [0], concurrent := 1, stop := true, pending := 0 } 0).commands[0]? =
      some { q := "Q1", mode := Mode.add, status := Status.done } :=
  ⟨c7_cooperative_cancellation.1 _ rfl,
   (c7_cooperative_cancellation.2.2.1
      { commands := [{ q := "Q1", mode := Mode.add, status := Status.running }],
        running := [0], concurrent := 1, stop := true, pending := 0 } 0
      { q := "Q1", mode := Mode.add, status := Status.running } (by decide) rfl).2.1⟩

/-- Concrete instantiation of `c6_completion_signal`: a state whose two
descriptors are both done (stop unset, a pending dispatch invocation,
running empty) makes the dispatch step fire `allDone()`. -/
theorem c6_completion_signal_witness :
    (runNextCommand
      { commands := [{ q := "Q1", mode := Mode.add, status := Status.done },
                     { q := "Q2", mode := Mode.add, status := Status.done }],
        running := [], concurrent := 2, stop := false, pending := 2 }).2 = true :=
  (c6_completion_signal _).mpr ⟨rfl, by decide, by decide⟩
